import Mathlib

/-!
Verification of `git-owner` (src/git_owner/__init__.py), a script that
estimates the likely owner of a file from two git signals.

Shallow embedding conventions:
* Python `dict[str, float]` values are insertion-ordered association lists
  `List (String × ℚ)`; fractional values are modelled by `ℚ` (exact
  arithmetic in place of IEEE doubles).
* `subprocess.run(..., check=True)` failing (`CalledProcessError`) is the
  `none` case of an `Option (List String)` argument holding the parsed
  author list of each git query; `sys.exit(1)` is `Except.error 1`; an
  uncaught `IndexError` is the `none` case of an `Option` result.
* Python's `sorted(key=..., reverse=True)` is a stable descending sort; a
  stable sort's output is uniquely determined by the input order and the
  key comparison, so it is embedded as the stable descending insertion
  sort `sortDescBy`.
-/

/-- The association-list reading of a Python dict: the value at the first
matching key, if any (`dict[k]` / `dict.get(k)`). -/
def lookup : List (String × ℚ) → String → Option ℚ
  | [], _ => none
  | (k, v) :: rest, a => if k = a then some v else lookup rest a

/-- Python dict assignment `d[k] = v`: replace the value at an existing key
in place, else append the new pair (insertion order is preserved). -/
def dictSet : List (String × ℚ) → String → ℚ → List (String × ℚ)
  | [], k, v => [(k, v)]
  | (k', v') :: rest, k, v =>
      if k' = k then (k', v) :: rest else (k', v') :: dictSet rest k v

/-- The keys of `collections.Counter(authors)` in insertion order: each
distinct element of `authors` at its first occurrence. -/
def dedupFirst : List String → List String
  | [] => []
  | a :: rest => a :: (dedupFirst rest).filter (fun b => b ≠ a)

/-- `collections.Counter(authors)` as an association list in the Counter's
insertion order (first occurrence), each author with its occurrence count. -/
def counterItems (authors : List String) : List (String × Nat) :=
  (dedupFirst authors).map (fun a => (a, authors.count a))

/-- `Counter.total()`: the sum of all counts. -/
def counterTotal (items : List (String × Nat)) : Nat :=
  (items.map Prod.snd).sum

/-- Stable descending insertion by a key function: `x` is placed before the
first element whose key is `≤ key x`, hence after all strictly greater keys
and before all equal keys that occurred later in the input. -/
def insertDescBy {α β : Type} [LinearOrder β] (key : α → β) (x : α) :
    List α → List α
  | [] => [x]
  | y :: ys => if key y ≤ key x then x :: y :: ys else y :: insertDescBy key x ys

/-- Stable descending sort by a key function; extensionally equal to
Python's `sorted(l, key=key, reverse=True)`. -/
def sortDescBy {α β : Type} [LinearOrder β] (key : α → β) (l : List α) :
    List α :=
  l.foldr (insertDescBy key) []

/-- `Counter.most_common()` (no argument): all items sorted by count
descending, ties kept in insertion order (CPython implements it as
`sorted(self.items(), key=itemgetter(1), reverse=True)`). -/
def most_common (items : List (String × Nat)) : List (String × Nat) :=
  sortDescBy (fun item => item.2) items

/-- The share mapping type (`Shares = dict[str, float]`). -/
abbrev Shares := List (String × ℚ)

/-- `contributor_shares`: count occurrences, then map each author (in
`most_common` order, as the source iterates) to `count / total`. -/
def contributor_shares (authors : List String) : Shares :=
  (most_common (counterItems authors)).map
    (fun ac => (ac.1, (ac.2 : ℚ) / (counterTotal (counterItems authors) : ℚ)))

/-- `combine_shares`: first insert every log author at `fraction / 2`, then
for each blame author add `fraction / 2` to its current value
(`combined_shares.get(author, 0)`), appending if absent. -/
def combine_shares (log blame : Shares) : Shares :=
  blame.foldl
    (fun m av => dictSet m av.1 ((lookup m av.1).getD 0 + av.2 / 2))
    (log.foldl (fun m av => dictSet m av.1 (av.2 / 2)) [])

/-- The sorted-shares type (`SortedShares = list[tuple[str, float]]`). -/
abbrev SortedShares := List (String × ℚ)

/-- `sort_shares`: `sorted(shares.items(), key=lambda item: item[1],
reverse=True)` — stable sort by fraction descending. -/
def sort_shares (shares : Shares) : SortedShares :=
  sortDescBy (fun item => item.2) shares

/-- `likely_owner`: `shares[0][0]`; `none` models the `IndexError` raised
on an empty list. -/
def likely_owner (shares : SortedShares) : Option String :=
  shares.head?.map Prod.fst

/-- The parsed command-line arguments (`argparse.Namespace`). -/
structure Args where
  files : List String
  most_likely : Bool
  names : Bool
  placeholder : Option String
  verbose : Bool
  only_log : Bool
  only_blame : Bool

/-- `estimate_file`, abstracted over what the two git queries produced:
`logResult` / `blameResult` is `some authors` when the query succeeded
(possibly with zero parsed authors) and `none` when the git command failed,
in which case the corresponding buffer key is missing and the `KeyError`
handler runs `sys.exit(1)` (`Except.error 1`). -/
def estimate_file (logResult blameResult : Option (List String))
    (args : Args) : Except Nat SortedShares :=
  if args.only_log then
    match logResult with
    | none => .error 1
    | some log => .ok (sort_shares (contributor_shares log))
  else if args.only_blame then
    match blameResult with
    | none => .error 1
    | some blame => .ok (sort_shares (contributor_shares blame))
  else
    match logResult, blameResult with
    | some log, some blame =>
        .ok (sort_shares (combine_shares (contributor_shares log)
          (contributor_shares blame)))
    | _, _ => .error 1

/-- One line printed by the reporter: a `-- file --` header, a ranked
`#rank  author  (percentage)` entry, or the bare owner line of
most-likely mode. The numeric text rendering is not modelled. -/
inductive OutputLine
  | header (name : String)
  | entry (rank : Nat) (author : String) (fraction : ℚ)
  | owner (author : String)
deriving DecidableEq

/-- Whether an output line is a file header. -/
def isHeader : OutputLine → Bool
  | .header _ => true
  | _ => false

/-- The `enumerate` loop of `report_shares`: one entry per share, rank
starting at the given value and increasing by one. -/
def report_entries (rank : Nat) : SortedShares → List OutputLine
  | [] => []
  | av :: rest => .entry rank av.1 av.2 :: report_entries (rank + 1) rest

/-- `report_shares`: an optional header line, then every share as a ranked
entry (ranks start at 1). -/
def report_shares (shares : SortedShares) (header : Option String) :
    List OutputLine :=
  (match header with
   | some h => [OutputLine.header h]
   | none => []) ++ report_entries 1 shares

/-- `print_report`: most-likely mode prints only `likely_owner` (`none`
models its uncaught `IndexError` on an empty list); otherwise
`report_shares` runs with a header exactly when more than one file was
given on the command line. -/
def print_report (shares : SortedShares) (file : String) (args : Args) :
    Option (List OutputLine) :=
  if args.most_likely then
    (likely_owner shares).map (fun a => [OutputLine.owner a])
  else
    some (report_shares shares
      (if 1 < args.files.length then some file else none))

/-! ### Lemmas about the stable descending sort -/

theorem mem_insertDescBy {α β : Type} [LinearOrder β] (key : α → β) (x z : α)
    (l : List α) : z ∈ insertDescBy key x l ↔ z = x ∨ z ∈ l := by
  induction l with
  | nil => simp [insertDescBy]
  | cons y ys ih =>
    by_cases h : key y ≤ key x
    · simp [insertDescBy, h]
    · simp only [insertDescBy, if_neg h, List.mem_cons, ih]
      tauto

theorem perm_insertDescBy {α β : Type} [LinearOrder β] (key : α → β) (x : α)
    (l : List α) : List.Perm (insertDescBy key x l) (x :: l) := by
  induction l with
  | nil => exact List.Perm.refl _
  | cons y ys ih =>
    by_cases h : key y ≤ key x
    · simp [insertDescBy, h]
    · simp only [insertDescBy, if_neg h]
      exact (ih.cons y).trans (List.Perm.swap x y ys)

theorem sortDescBy_perm {α β : Type} [LinearOrder β] (key : α → β)
    (l : List α) : List.Perm (sortDescBy key l) l := by
  induction l with
  | nil => exact List.Perm.refl _
  | cons a l ih =>
    exact (perm_insertDescBy key a (sortDescBy key l)).trans (ih.cons a)

theorem pairwise_insertDescBy {α β : Type} [LinearOrder β] (key : α → β)
    (x : α) {l : List α} (h : l.Pairwise (fun a b => key b ≤ key a)) :
    (insertDescBy key x l).Pairwise (fun a b => key b ≤ key a) := by
  induction l with
  | nil => simp [insertDescBy]
  | cons y ys ih =>
    rcases List.pairwise_cons.1 h with ⟨hy, hys⟩
    by_cases hle : key y ≤ key x
    · rw [show insertDescBy key x (y :: ys) = x :: y :: ys by
        simp [insertDescBy, hle]]
      refine List.pairwise_cons.2 ⟨?_, h⟩
      intro z hz
      rcases List.mem_cons.1 hz with rfl | hz
      · exact hle
      · exact le_trans (hy z hz) hle
    · rw [show insertDescBy key x (y :: ys) = y :: insertDescBy key x ys by
        simp [insertDescBy, hle]]
      refine List.pairwise_cons.2 ⟨?_, ih hys⟩
      intro z hz
      rcases (mem_insertDescBy key x z ys).1 hz with rfl | hz
      · exact le_of_not_le hle
      · exact hy z hz

theorem sortDescBy_pairwise {α β : Type} [LinearOrder β] (key : α → β)
    (l : List α) :
    (sortDescBy key l).Pairwise (fun a b => key b ≤ key a) := by
  induction l with
  | nil => simp [sortDescBy]
  | cons a l ih => exact pairwise_insertDescBy key a ih

theorem filter_insertDescBy {α β : Type} [LinearOrder β] (key : α → β)
    (v : β) (x : α) (l : List α) :
    (insertDescBy key x l).filter (fun z => decide (key z = v)) =
      if key x = v then x :: l.filter (fun z => decide (key z = v))
      else l.filter (fun z => decide (key z = v)) := by
  induction l with
  | nil =>
    by_cases hx : key x = v <;> simp [insertDescBy, List.filter, hx]
  | cons y ys ih =>
    by_cases hle : key y ≤ key x
    · rw [show insertDescBy key x (y :: ys) = x :: y :: ys by
        simp [insertDescBy, hle]]
      by_cases hx : key x = v <;> simp [List.filter_cons, hx]
    · rw [show insertDescBy key x (y :: ys) = y :: insertDescBy key x ys by
        simp [insertDescBy, hle]]
      by_cases hx : key x = v
      · have hy : ¬ key y = v := by
          intro hv
          exact hle (le_of_eq (hv.trans hx.symm))
        simp [List.filter_cons, hx, hy, ih]
      · by_cases hy : key y = v <;> simp [List.filter_cons, hx, hy, ih]

theorem filter_sortDescBy {α β : Type} [LinearOrder β] (key : α → β)
    (v : β) (l : List α) :
    (sortDescBy key l).filter (fun z => decide (key z = v)) =
      l.filter (fun z => decide (key z = v)) := by
  induction l with
  | nil => rfl
  | cons a l ih =>
    show (insertDescBy key a (sortDescBy key l)).filter _ = _
    rw [filter_insertDescBy]
    by_cases ha : key a = v <;> simp [List.filter, ha, ih]

/-! ### Lemmas about the Counter model -/

theorem dedupFirst_nodup (l : List String) : (dedupFirst l).Nodup := by
  induction l with
  | nil => simp [dedupFirst]
  | cons a rest ih =>
    simp only [dedupFirst, List.nodup_cons]
    constructor
    · intro hmem
      have := List.of_mem_filter hmem
      simp at this
    · exact ih.filter _

theorem mem_dedupFirst (l : List String) (a : String) :
    a ∈ dedupFirst l ↔ a ∈ l := by
  induction l with
  | nil => simp [dedupFirst]
  | cons b rest ih =>
    simp only [dedupFirst, List.mem_cons]
    by_cases hab : a = b
    · simp [hab]
    · simp [List.mem_filter, hab, ih]

theorem count_dedupFirst (l : List String) (a : String) :
    (dedupFirst l).count a = if a ∈ l then 1 else 0 := by
  rw [List.count_eq_of_nodup (dedupFirst_nodup l)]
  simp [mem_dedupFirst]

theorem dedupFirst_perm_dedup (l : List String) :
    List.Perm (dedupFirst l) l.dedup := by
  rw [List.perm_iff_count]
  intro a
  rw [count_dedupFirst, List.count_dedup]

theorem counterTotal_eq_length (authors : List String) :
    counterTotal (counterItems authors) = authors.length := by
  unfold counterTotal counterItems
  rw [List.map_map]
  rw [show (Prod.snd ∘ fun a => (a, authors.count a)) =
      fun a => authors.count a from rfl]
  rw [((dedupFirst_perm_dedup authors).map
    (fun a => authors.count a)).sum_eq]
  exact List.sum_map_count_dedup_eq_length authors

theorem counterItems_keys (authors : List String) :
    (counterItems authors).map Prod.fst = dedupFirst authors := by
  unfold counterItems
  rw [List.map_map]
  rw [show (Prod.fst ∘ fun a => (a, authors.count a)) = id from rfl]
  exact List.map_id _

theorem contributor_shares_keys_perm (authors : List String) :
    List.Perm ((contributor_shares authors).map Prod.fst)
      (dedupFirst authors) := by
  unfold contributor_shares
  rw [List.map_map]
  rw [show (Prod.fst ∘ fun ac : String × Nat =>
      (ac.1, (ac.2 : ℚ) / (counterTotal (counterItems authors) : ℚ))) =
      Prod.fst from rfl]
  rw [← counterItems_keys authors]
  exact (sortDescBy_perm _ _).map Prod.fst

theorem contributor_shares_keys_mem (authors : List String) (a : String) :
    a ∈ (contributor_shares authors).map Prod.fst ↔ a ∈ authors := by
  rw [(contributor_shares_keys_perm authors).mem_iff, mem_dedupFirst]

theorem contributor_shares_keys_nodup (authors : List String) :
    ((contributor_shares authors).map Prod.fst).Nodup :=
  (contributor_shares_keys_perm authors).nodup_iff.2 (dedupFirst_nodup authors)

/-! ### Lemmas about dict lookup and assignment -/

theorem contributor_shares_sum (authors : List String) (h : authors ≠ []) :
    ((contributor_shares authors).map Prod.snd).sum = 1 := by
  unfold contributor_shares most_common
  rw [List.map_map]
  rw [show (Prod.snd ∘ fun ac : String × Nat =>
      (ac.1, (ac.2 : ℚ) / (counterTotal (counterItems authors) : ℚ))) =
      fun ac : String × Nat =>
        (ac.2 : ℚ) / (counterTotal (counterItems authors) : ℚ) from rfl]
  rw [((sortDescBy_perm (fun item => item.2) (counterItems authors)).map
    (fun ac : String × Nat =>
      (ac.2 : ℚ) / (counterTotal (counterItems authors) : ℚ))).sum_eq]
  rw [show (fun ac : String × Nat =>
      (ac.2 : ℚ) / (counterTotal (counterItems authors) : ℚ)) =
      (fun ac : String × Nat =>
        (ac.2 : ℚ) * ((counterTotal (counterItems authors) : ℚ))⁻¹) from by
    funext ac
    rw [div_eq_mul_inv]]
  rw [List.sum_map_mul_right]
  rw [show (fun ac : String × Nat => (ac.2 : ℚ)) =
      ((fun n : Nat => (n : ℚ)) ∘ Prod.snd) from rfl]
  rw [← List.map_map, ← Nat.cast_list_sum]
  have htot : (counterTotal (counterItems authors) : ℚ) ≠ 0 := by
    rw [counterTotal_eq_length]
    have hlen : authors.length ≠ 0 := fun hz => h (List.length_eq_zero.1 hz)
    exact Nat.cast_ne_zero.2 hlen
  exact mul_inv_cancel₀ htot

theorem contributor_shares_mem_bounds (authors : List String)
    (x : String × ℚ) (hx : x ∈ contributor_shares authors) :
    0 < x.2 ∧ x.2 ≤ 1 := by
  unfold contributor_shares most_common at hx
  obtain ⟨ac, hac, rfl⟩ := List.mem_map.1 hx
  have hac2 : ac ∈ counterItems authors :=
    (sortDescBy_perm (fun item => item.2) (counterItems authors)).mem_iff.1 hac
  obtain ⟨b, hb, rfl⟩ := List.mem_map.1 hac2
  have hbmem : b ∈ authors := (mem_dedupFirst authors b).1 hb
  have hcount : 0 < List.count b authors := List.count_pos_iff.2 hbmem
  have hlen : 0 < authors.length :=
    lt_of_lt_of_le hcount (List.count_le_length b authors)
  show 0 < (authors.count b : ℚ) / (counterTotal (counterItems authors) : ℚ) ∧
    (authors.count b : ℚ) / (counterTotal (counterItems authors) : ℚ) ≤ 1
  rw [counterTotal_eq_length]
  constructor
  · exact div_pos (by exact_mod_cast hcount) (by exact_mod_cast hlen)
  · rw [div_le_one (by exact_mod_cast hlen)]
    exact_mod_cast List.count_le_length b authors

theorem lookup_eq_none_of_not_mem (m : List (String × ℚ)) (a : String)
    (h : a ∉ m.map Prod.fst) : lookup m a = none := by
  induction m with
  | nil => rfl
  | cons kv rest ih =>
    obtain ⟨k, v⟩ := kv
    simp only [List.map_cons, List.mem_cons] at h
    push_neg at h
    simp only [lookup]
    rw [if_neg (fun hk => h.1 hk.symm)]
    exact ih h.2

theorem lookup_isSome_of_mem (m : List (String × ℚ)) (a : String)
    (h : a ∈ m.map Prod.fst) : ∃ v, lookup m a = some v := by
  induction m with
  | nil => simp at h
  | cons kv rest ih =>
    obtain ⟨k, v⟩ := kv
    by_cases hk : k = a
    · exact ⟨v, by simp [lookup, hk]⟩
    · simp only [List.map_cons, List.mem_cons] at h
      rcases h with rfl | h
      · exact absurd rfl hk
      · obtain ⟨w, hw⟩ := ih h
        exact ⟨w, by simp [lookup, hk, hw]⟩

theorem lookup_of_mem_nodup {m : List (String × ℚ)} {a : String} {v : ℚ}
    (hn : (m.map Prod.fst).Nodup) (h : (a, v) ∈ m) : lookup m a = some v := by
  induction m with
  | nil => simp at h
  | cons kv rest ih =>
    obtain ⟨k, w⟩ := kv
    simp only [List.map_cons, List.nodup_cons] at hn
    rcases List.mem_cons.1 h with heq | hmem
    · have hk : k = a := (congrArg Prod.fst heq).symm
      have hv : w = v := (congrArg Prod.snd heq).symm
      simp [lookup, hk, hv]
    · have hka : k ≠ a := by
        intro hk
        exact hn.1 (hk ▸ (List.mem_map.2 ⟨(a, v), hmem, rfl⟩))
      simp only [lookup, if_neg hka]
      exact ih hn.2 hmem

theorem lookup_map_snd (f : ℚ → ℚ) (m : List (String × ℚ)) (a : String) :
    lookup (m.map (fun av => (av.1, f av.2))) a = (lookup m a).map f := by
  induction m with
  | nil => rfl
  | cons kv rest ih =>
    obtain ⟨k, v⟩ := kv
    by_cases hk : k = a <;> simp [lookup, hk, ih]

theorem lookup_append_right (pre tail : List (String × ℚ)) (a : String)
    (h : a ∉ pre.map Prod.fst) : lookup (pre ++ tail) a = lookup tail a := by
  induction pre with
  | nil => rfl
  | cons kv rest ih =>
    obtain ⟨k, v⟩ := kv
    simp only [List.map_cons, List.mem_cons] at h
    push_neg at h
    simp only [List.cons_append, lookup]
    rw [if_neg (fun hk => h.1 hk.symm)]
    exact ih h.2

theorem lookup_dictSet_self (m : List (String × ℚ)) (k : String) (v : ℚ) :
    lookup (dictSet m k v) k = some v := by
  induction m with
  | nil => simp [dictSet, lookup]
  | cons kv rest ih =>
    obtain ⟨k', v'⟩ := kv
    by_cases hk : k' = k <;> simp [dictSet, lookup, hk, ih]

theorem lookup_dictSet_ne (m : List (String × ℚ)) {a k : String}
    (h : a ≠ k) (v : ℚ) : lookup (dictSet m k v) a = lookup m a := by
  induction m with
  | nil =>
    simp only [dictSet, lookup]
    rw [if_neg (Ne.symm h)]
  | cons kv rest ih =>
    obtain ⟨k', v'⟩ := kv
    by_cases hk : k' = k
    · have hk'a : ¬ k' = a := fun he => h (he.symm.trans hk)
      simp only [dictSet, if_pos hk, lookup]
      rw [if_neg hk'a, if_neg hk'a]
    · simp only [dictSet, if_neg hk, lookup]
      by_cases ha : k' = a
      · rw [if_pos ha, if_pos ha]
      · rw [if_neg ha, if_neg ha, ih]

theorem mem_keys_dictSet (m : List (String × ℚ)) (k : String) (v : ℚ)
    (a : String) :
    a ∈ (dictSet m k v).map Prod.fst ↔ a = k ∨ a ∈ m.map Prod.fst := by
  induction m with
  | nil => simp [dictSet]
  | cons kv rest ih =>
    obtain ⟨k', v'⟩ := kv
    by_cases hk : k' = k
    · subst hk
      rw [show dictSet ((k', v') :: rest) k' v = (k', v) :: rest by
        simp [dictSet]]
      simp only [List.map_cons, List.mem_cons]
      tauto
    · simp only [dictSet, if_neg hk, List.map_cons, List.mem_cons, ih]
      tauto

theorem dictSet_of_not_mem (m : List (String × ℚ)) (k : String) (v : ℚ)
    (h : k ∉ m.map Prod.fst) : dictSet m k v = m ++ [(k, v)] := by
  induction m with
  | nil => rfl
  | cons kv rest ih =>
    obtain ⟨k', v'⟩ := kv
    simp only [List.map_cons, List.mem_cons] at h
    push_neg at h
    simp only [dictSet]
    rw [if_neg (fun hk => h.1 hk.symm)]
    simp [ih h.2]

theorem dictSet_mid (pre rest : List (String × ℚ)) (k : String) (v' v : ℚ)
    (h : k ∉ pre.map Prod.fst) :
    dictSet (pre ++ (k, v') :: rest) k v = pre ++ (k, v) :: rest := by
  induction pre with
  | nil => simp [dictSet]
  | cons kv pre' ih =>
    obtain ⟨k'', v''⟩ := kv
    simp only [List.map_cons, List.mem_cons] at h
    push_neg at h
    simp only [List.cons_append, dictSet]
    rw [if_neg (fun he => h.1 he.symm)]
    simp [ih h.2]

theorem foldl_dictSet_keys (g : List (String × ℚ) → String × ℚ → ℚ)
    (l : List (String × ℚ)) (m₀ : List (String × ℚ)) (a : String) :
    a ∈ (l.foldl (fun m av => dictSet m av.1 (g m av)) m₀).map Prod.fst ↔
      a ∈ m₀.map Prod.fst ∨ a ∈ l.map Prod.fst := by
  induction l generalizing m₀ with
  | nil => simp
  | cons av rest ih =>
    simp only [List.foldl_cons, List.map_cons, List.mem_cons]
    rw [ih, mem_keys_dictSet]
    tauto

theorem foldl_halve (l m₀ : List (String × ℚ))
    (hd : (m₀.map Prod.fst ++ l.map Prod.fst).Nodup) :
    l.foldl (fun m av => dictSet m av.1 (av.2 / 2)) m₀ =
      m₀ ++ l.map (fun av => (av.1, av.2 / 2)) := by
  induction l generalizing m₀ with
  | nil => simp
  | cons av rest ih =>
    simp only [List.map_cons] at hd
    have hd' := List.nodup_append.1 hd
    have hnotin : av.1 ∉ m₀.map Prod.fst := fun hmem =>
      hd'.2.2 hmem (List.mem_cons_self _ _)
    have hd2 : ((m₀ ++ [(av.1, av.2 / 2)]).map Prod.fst ++
        rest.map Prod.fst).Nodup := by
      simpa [List.append_assoc] using hd
    simp only [List.foldl_cons]
    rw [dictSet_of_not_mem _ _ _ hnotin, ih _ hd2]
    simp

theorem foldl_blame_lookup (blame m₀ : List (String × ℚ)) (a : String)
    (hb : (blame.map Prod.fst).Nodup) :
    lookup (blame.foldl
      (fun m av => dictSet m av.1 ((lookup m av.1).getD 0 + av.2 / 2)) m₀) a =
      if a ∈ blame.map Prod.fst then
        some ((lookup m₀ a).getD 0 + (lookup blame a).getD 0 / 2)
      else lookup m₀ a := by
  induction blame generalizing m₀ with
  | nil => simp
  | cons av rest ih =>
    obtain ⟨k, v⟩ := av
    simp only [List.map_cons, List.nodup_cons] at hb
    simp only [List.foldl_cons, List.map_cons, List.mem_cons]
    rw [ih _ hb.2]
    by_cases hmem : a ∈ rest.map Prod.fst
    · have hak : ¬ a = k := fun he => hb.1 (he ▸ hmem)
      rw [if_pos hmem, if_pos (Or.inr hmem), lookup_dictSet_ne _ hak]
      simp only [lookup]
      rw [if_neg (fun he : k = a => hak he.symm)]
    · by_cases hak : a = k
      · subst hak
        rw [if_neg hmem, if_pos (Or.inl rfl), lookup_dictSet_self]
        simp [lookup]
      · rw [if_neg hmem, if_neg (fun h => h.elim hak hmem),
          lookup_dictSet_ne _ hak]

theorem foldl_self_update (l pre : List (String × ℚ))
    (hd : ((pre ++ l).map Prod.fst).Nodup) :
    l.foldl (fun m av => dictSet m av.1 ((lookup m av.1).getD 0 + av.2 / 2))
      (pre ++ l.map (fun av => (av.1, av.2 / 2))) = pre ++ l := by
  induction l generalizing pre with
  | nil => simp
  | cons av rest ih =>
    obtain ⟨k, v⟩ := av
    rw [show List.map Prod.fst (pre ++ (k, v) :: rest) =
        pre.map Prod.fst ++ k :: rest.map Prod.fst by simp] at hd
    have hknotpre : k ∉ pre.map Prod.fst := fun hmem =>
      (List.nodup_append.1 hd).2.2 hmem (List.mem_cons_self _ _)
    simp only [List.map_cons, List.foldl_cons]
    rw [lookup_append_right _ _ _ hknotpre]
    rw [show lookup ((k, v / 2) :: rest.map (fun av => (av.1, av.2 / 2))) k =
        some (v / 2) by simp [lookup]]
    simp only [Option.getD_some]
    rw [add_halves, dictSet_mid _ _ _ _ _ hknotpre]
    rw [show pre ++ (k, v) :: rest.map (fun av => (av.1, av.2 / 2)) =
        (pre ++ [(k, v)]) ++ rest.map (fun av => (av.1, av.2 / 2)) by simp]
    rw [ih (pre ++ [(k, v)]) (by simpa [List.append_assoc] using hd)]
    simp

theorem contributor_shares_lookup (authors : List String) (a : String) :
    lookup (contributor_shares authors) a =
      if a ∈ authors then
        some ((authors.count a : ℚ) / (authors.length : ℚ))
      else none := by
  by_cases h : a ∈ authors
  · rw [if_pos h]
    have hmem : (a, authors.count a) ∈ counterItems authors :=
      List.mem_map.2 ⟨a, (mem_dedupFirst authors a).2 h, rfl⟩
    have hmem2 : (a, authors.count a) ∈ most_common (counterItems authors) := by
      unfold most_common
      exact (sortDescBy_perm (fun item => item.2)
        (counterItems authors)).mem_iff.2 hmem
    have hmem3 : (a, (authors.count a : ℚ) /
        (counterTotal (counterItems authors) : ℚ)) ∈
        contributor_shares authors :=
      List.mem_map.2 ⟨(a, authors.count a), hmem2, rfl⟩
    rw [counterTotal_eq_length] at hmem3
    exact lookup_of_mem_nodup (contributor_shares_keys_nodup authors) hmem3
  · rw [if_neg h]
    exact lookup_eq_none_of_not_mem _ _
      (fun hmem => h ((contributor_shares_keys_mem authors a).1 hmem))

/-! ### Claim theorems

Concrete `Args` values are written with the anonymous constructor; the
field order is files, most_likely, names, placeholder, verbose, only_log,
only_blame. -/

/-- Claim C1 (code bug): `estimate_file` never consults the parsed
`--placeholder` value — replacing it changes nothing — and when both git
queries fail it exits with status 1 for every argument configuration,
placeholder or not; no placeholder owner is ever substituted. -/
theorem estimate_file_ignores_placeholder (lr br : Option (List String))
    (args : Args) (p : Option String) :
    estimate_file lr br
        ⟨args.files, args.most_likely, args.names, p, args.verbose,
          args.only_log, args.only_blame⟩ =
      estimate_file lr br args ∧
    estimate_file none none args = Except.error 1 := by
  constructor
  · rfl
  · unfold estimate_file
    by_cases h1 : args.only_log
    · simp [h1]
    · by_cases h2 : args.only_blame <;> simp [h1, h2]

/-- Claim C1 witness: the invocation `git-owner -p nobody -l a.txt` with
the git log query failing still exits with status 1, exactly as it does
with no placeholder configured. -/
theorem estimate_file_ignores_placeholder_witness :
    estimate_file none none
        (⟨["a.txt"], false, false, some "nobody", false, true, false⟩ :
          Args) =
      estimate_file none none
        (⟨["a.txt"], false, false, none, false, true, false⟩ : Args) ∧
    estimate_file none none
        (⟨["a.txt"], false, false, none, false, true, false⟩ : Args) =
      Except.error 1 :=
  estimate_file_ignores_placeholder none none
    (⟨["a.txt"], false, false, none, false, true, false⟩ : Args)
    (some "nobody")

/-- Claim C2 counterexample: with `--only-blame` and a successful blame
query parsing zero authors, the analysis succeeds with an empty ranked
list instead of failing, and the most-likely top-author selection is an
out-of-range access (`IndexError`), crashing `print_report`. -/
theorem empty_result_counterexample :
    estimate_file none (some [])
        (⟨["a.txt"], true, false, none, false, false, true⟩ : Args) =
      Except.ok [] ∧
    likely_owner [] = none ∧
    print_report [] "a.txt"
        (⟨["a.txt"], true, false, none, false, false, true⟩ : Args) =
      none :=
  ⟨rfl, rfl, rfl⟩

/-- Claim C2 (amended): an empty successful query result is never detected
or treated as a failure: the share calculator performs no division and
returns the empty mapping, `estimate_file` succeeds with an empty ranked
list, and in most-likely mode selecting the top author is an out-of-range
access (an uncaught `IndexError`). -/
theorem empty_result_behavior (args : Args) (lr : Option (List String))
    (file : String) (hol : args.only_log = false)
    (hob : args.only_blame = true) (hm : args.most_likely = true) :
    contributor_shares [] = [] ∧
    estimate_file lr (some []) args = Except.ok [] ∧
    print_report [] file args = none := by
  refine ⟨rfl, ?_, ?_⟩
  · unfold estimate_file
    rw [hol, hob]
    simp [sort_shares, sortDescBy, contributor_shares, counterItems,
      dedupFirst, most_common, counterTotal]
  · unfold print_report
    rw [hm]
    simp [likely_owner]

/-- Claim C2 witness: concrete check with `--only-blame --most-likely` on
a blame query that returned zero parsed author lines. -/
theorem empty_result_behavior_witness :
    ((⟨["a.txt"], true, false, none, false, false, true⟩ :
        Args).only_log = false) ∧
    ((⟨["a.txt"], true, false, none, false, false, true⟩ :
        Args).only_blame = true) ∧
    ((⟨["a.txt"], true, false, none, false, false, true⟩ :
        Args).most_likely = true) ∧
    (contributor_shares [] = [] ∧
      estimate_file (some ["x"]) (some [])
          (⟨["a.txt"], true, false, none, false, false, true⟩ : Args) =
        Except.ok [] ∧
      print_report [] "a.txt"
          (⟨["a.txt"], true, false, none, false, false, true⟩ : Args) =
        none) :=
  ⟨rfl, rfl, rfl,
   empty_result_behavior _ (some ["x"]) "a.txt" rfl rfl rfl⟩

/-- Claim C3 counterexample: two files were given, yet the most-likely
report of file `a.txt` is a single bare owner line containing no header
naming the file. -/
theorem most_likely_no_header_counterexample :
    ((⟨["a.txt", "b.txt"], true, false, none, false, false, false⟩ :
        Args).files.length = 2) ∧
    print_report [("alice", 1)] "a.txt"
        (⟨["a.txt", "b.txt"], true, false, none, false, false, false⟩ :
          Args) =
      some [OutputLine.owner "alice"] ∧
    [OutputLine.owner "alice"].filter isHeader = [] :=
  ⟨rfl, rfl, rfl⟩

/-- Claim C3 (amended): when more than one file is given, a file's report
is preceded by a header naming it in non-most-likely mode only; most-likely
mode prints just the top author with no header. -/
theorem report_header_when_multiple_files (shares : SortedShares)
    (file : String) (args : Args) (hm : args.most_likely = false)
    (hf : 1 < args.files.length) :
    ∃ rest, print_report shares file args =
      some (OutputLine.header file :: rest) := by
  refine ⟨report_entries 1 shares, ?_⟩
  unfold print_report
  rw [hm]
  simp [report_shares, hf]

/-- Claim C3 witness: concrete two-file invocation in report mode. -/
theorem report_header_when_multiple_files_witness :
    ((⟨["a.txt", "b.txt"], false, false, none, false, false, false⟩ :
        Args).most_likely = false) ∧
    (1 < (⟨["a.txt", "b.txt"], false, false, none, false, false, false⟩ :
        Args).files.length) ∧
    (∃ rest, print_report [("alice", 1)] "a.txt"
        (⟨["a.txt", "b.txt"], false, false, none, false, false, false⟩ :
          Args) =
      some (OutputLine.header "a.txt" :: rest)) :=
  ⟨rfl, by decide,
   report_header_when_multiple_files [("alice", 1)] "a.txt" _ rfl (by decide)⟩

/-- Claim C4 counterexample: for the empty author list the share values
sum to 0, not 1 (within any tolerance), refuting the claim for that
input. -/
theorem contributor_shares_empty_sum_ne_one :
    ((contributor_shares ([] : List String)).map Prod.snd).sum ≠ 1 := by
  decide

/-- Claim C4 (amended): for every nonempty ordered list of author
identifiers the share values sum to exactly 1 and every value lies in
(0, 1]. -/
theorem contributor_shares_sum_one_and_bounds (authors : List String)
    (h : authors ≠ []) :
    ((contributor_shares authors).map Prod.snd).sum = 1 ∧
    ∀ x ∈ contributor_shares authors, 0 < x.2 ∧ x.2 ≤ 1 :=
  ⟨contributor_shares_sum authors h,
   fun x hx => contributor_shares_mem_bounds authors x hx⟩

/-- Claim C4 witness: concrete check at the list `["a", "a", "b"]`. -/
theorem contributor_shares_sum_one_and_bounds_witness :
    (["a", "a", "b"] : List String) ≠ [] ∧
    (((contributor_shares ["a", "a", "b"]).map Prod.snd).sum = 1 ∧
      ∀ x ∈ contributor_shares ["a", "a", "b"], 0 < x.2 ∧ x.2 ≤ 1) :=
  ⟨by decide, contributor_shares_sum_one_and_bounds ["a", "a", "b"]
    (by decide)⟩

/-- Claim C5: for a nonempty ranked list, the single author printed by
most-likely mode is the author of the first ranked entry that
non-most-likely mode prints for the same input. -/
theorem most_likely_matches_top_entry (a : String) (f : ℚ)
    (rest : SortedShares) (file : String) (args1 args2 : Args)
    (h1 : args1.most_likely = true) (h2 : args2.most_likely = false)
    (hf : args2.files.length ≤ 1) :
    print_report ((a, f) :: rest) file args1 = some [OutputLine.owner a] ∧
    ∃ tail, print_report ((a, f) :: rest) file args2 =
      some (OutputLine.entry 1 a f :: tail) := by
  constructor
  · unfold print_report
    rw [h1]
    simp [likely_owner]
  · refine ⟨report_entries 2 rest, ?_⟩
    unfold print_report
    rw [h2]
    have hnot : ¬ 1 < args2.files.length := not_lt.2 hf
    simp [report_shares, hnot, report_entries]

/-- Claim C5 witness: concrete single-file check in both output modes. -/
theorem most_likely_matches_top_entry_witness :
    ((⟨["a.txt"], true, false, none, false, false, false⟩ :
        Args).most_likely = true) ∧
    ((⟨["a.txt"], false, false, none, false, false, false⟩ :
        Args).most_likely = false) ∧
    ((⟨["a.txt"], false, false, none, false, false, false⟩ :
        Args).files.length ≤ 1) ∧
    (print_report [("alice", 1)] "a.txt"
        (⟨["a.txt"], true, false, none, false, false, false⟩ : Args) =
      some [OutputLine.owner "alice"] ∧
    ∃ tail, print_report [("alice", 1)] "a.txt"
        (⟨["a.txt"], false, false, none, false, false, false⟩ : Args) =
      some (OutputLine.entry 1 "alice" 1 :: tail)) :=
  ⟨rfl, rfl, by decide,
   most_likely_matches_top_entry "alice" 1 [] "a.txt" _ _ rfl rfl (by decide)⟩

/-- Claim C6: `sort_shares` output is descending on every adjacent pair,
and the sort is stable: filtering the output by any share value yields
exactly the input's entries with that value, in input (insertion) order. -/
theorem sort_shares_desc_stable (m : Shares) :
    List.Chain' (fun a b => b.2 ≤ a.2) (sort_shares m) ∧
    ∀ v : ℚ, (sort_shares m).filter (fun x => decide (x.2 = v)) =
      m.filter (fun x => decide (x.2 = v)) := by
  constructor
  · exact List.Pairwise.chain' (sortDescBy_pairwise (fun item => item.2) m)
  · exact fun v => filter_sortDescBy (fun item => item.2) v m

/-- Claim C7: for every author present in either input mapping (with the
dict invariant of unique keys), the blended share is half the share in the
first mapping (default 0) plus half the share in the second (default 0). -/
theorem combine_shares_pointwise (log blame : Shares)
    (hl : (log.map Prod.fst).Nodup) (hb : (blame.map Prod.fst).Nodup)
    (a : String)
    (ha : a ∈ log.map Prod.fst ∨ a ∈ blame.map Prod.fst) :
    lookup (combine_shares log blame) a =
      some ((lookup log a).getD 0 / 2 + (lookup blame a).getD 0 / 2) := by
  unfold combine_shares
  rw [foldl_halve log [] (by simpa using hl), List.nil_append]
  rw [foldl_blame_lookup blame _ a hb]
  by_cases hmem : a ∈ blame.map Prod.fst
  · rw [if_pos hmem, lookup_map_snd (fun x => x / 2) log a]
    cases hlog : lookup log a with
    | none => simp
    | some v => simp
  · rcases ha with halog | hablame
    · rw [if_neg hmem, lookup_map_snd (fun x => x / 2) log a]
      obtain ⟨v, hv⟩ := lookup_isSome_of_mem log a halog
      rw [hv, lookup_eq_none_of_not_mem blame a hmem]
      simp
    · exact absurd hablame hmem

/-- Claim C7 witness: blending the disjoint singleton mappings
alice ↦ 1 and bob ↦ 1 gives alice half of her original share. -/
theorem combine_shares_pointwise_witness :
    (([("alice", (1 : ℚ))] : Shares).map Prod.fst).Nodup ∧
    (([("bob", (1 : ℚ))] : Shares).map Prod.fst).Nodup ∧
    ("alice" ∈ ([("alice", (1 : ℚ))] : Shares).map Prod.fst ∨
      "alice" ∈ ([("bob", (1 : ℚ))] : Shares).map Prod.fst) ∧
    lookup (combine_shares [("alice", 1)] [("bob", 1)]) "alice" =
      some ((lookup [("alice", (1 : ℚ))] "alice").getD 0 / 2 +
        (lookup [("bob", (1 : ℚ))] "alice").getD 0 / 2) :=
  ⟨by decide, by decide, by decide,
   combine_shares_pointwise [("alice", 1)] [("bob", 1)] (by decide)
     (by decide) "alice" (by decide)⟩

/-- Claim C8: `contributor_shares` is a pure function of its input list;
the empty list yields the empty mapping, and each distinct author of the
list is mapped to its occurrence count divided by the total number of
occurrences (authors not in the list are absent). -/
theorem contributor_shares_spec (authors : List String) :
    contributor_shares [] = [] ∧
    ∀ a : String, lookup (contributor_shares authors) a =
      if a ∈ authors then
        some ((authors.count a : ℚ) / (authors.length : ℚ))
      else none :=
  ⟨rfl, fun a => contributor_shares_lookup authors a⟩

/-- Claim C9: blending a mapping (with the dict invariant of unique keys)
with itself returns the mapping unchanged, entry for entry. -/
theorem combine_shares_self (X : Shares) (h : (X.map Prod.fst).Nodup) :
    combine_shares X X = X := by
  unfold combine_shares
  rw [foldl_halve X [] (by simpa using h), List.nil_append]
  have hupd := foldl_self_update X [] (by simpa using h)
  simpa using hupd

/-- Claim C9 witness: blending the two-entry mapping
alice ↦ 2/3, bob ↦ 1/3 with itself returns it unchanged. -/
theorem combine_shares_self_witness :
    (([("alice", (2 : ℚ) / 3), ("bob", (1 : ℚ) / 3)] : Shares).map
      Prod.fst).Nodup ∧
    combine_shares [("alice", (2 : ℚ) / 3), ("bob", (1 : ℚ) / 3)]
        [("alice", (2 : ℚ) / 3), ("bob", (1 : ℚ) / 3)] =
      [("alice", (2 : ℚ) / 3), ("bob", (1 : ℚ) / 3)] :=
  ⟨by decide, combine_shares_self _ (by decide)⟩

/-- Claim C10: the key set of the blended mapping is exactly the union of
the two inputs' key sets — no author from either input is dropped and no
other author is introduced. -/
theorem combine_shares_keys (log blame : Shares) (a : String) :
    a ∈ (combine_shares log blame).map Prod.fst ↔
      a ∈ log.map Prod.fst ∨ a ∈ blame.map Prod.fst := by
  unfold combine_shares
  rw [foldl_dictSet_keys (fun m av => (lookup m av.1).getD 0 + av.2 / 2)]
  rw [foldl_dictSet_keys (fun m av => av.2 / 2)]
  simp
